import Mathlib

/-!
Verification of the go-interview-practice submissions (khoatran18)

Shallow embedding of
* `challenge-4`  : `bfs` and `ConcurrentBFSQueries`,
* `challenge-22` : `MinCoins`,
* `challenge-2`  : `ReverseString`,
* `challenge-6`  : `CountWordFrequency`,
* `gin/challenge-2-middleware` : `AuthMiddleware`.

Go `int` node identifiers are `Int` (no arithmetic is done on them), a Go
`map[K]V` result is a function `K → Option V`, a Go `string` is its sequence of
runes.
-/

namespace GoPractice

/-! ## challenge-4 : data model -/

/-- A Go `map[int][]int` given by its entries (a finite map: the first entry of a key
is the one that counts). -/
abbrev Graph := List (Int × List Int)

/-- The Go expression `graph[node]`: the neighbour slice of the node, the nil slice
when the node is not a key of the map. -/
def neighbors (graph : Graph) (node : Int) : List Int :=
  match graph.lookup node with
  | some ns => ns
  | none => []

/-- The local variables of the queue loop of `bfs`. `visited` lists the keys that
have been set to `true` in the Go map `visited` (no key is ever set to `false`). -/
structure BfsState where
  queue : List Int
  order : List Int
  visited : List Int
deriving DecidableEq, Repr

/-- The inner loop `for _, neighbor := range neighbors` acting on `queue` and
`visited`. -/
def visitNeighbors : List Int → List Int → List Int → List Int × List Int
  | queue, visited, [] => (queue, visited)
  | queue, visited, neighbor :: rest =>
    if neighbor ∈ visited then visitNeighbors queue visited rest
    else visitNeighbors (queue ++ [neighbor]) (neighbor :: visited) rest

/-- One pass through the body of `for len(queue) > 0`, the front of the queue being
`node` and the remainder `rest`. -/
def bfsBody (graph : Graph) (node : Int) (rest order visited : List Int) : BfsState :=
  let qv := visitNeighbors rest (node :: visited) (neighbors graph node)
  { queue := qv.1, order := order ++ [node], visited := qv.2 }

/-- The loop `for len(queue) > 0` run for at most `fuel` passes: `some order` when the
queue became empty within that many passes, `none` when a pass is still due. -/
def bfsLoop (graph : Graph) (fuel : Nat) (s : BfsState) : Option (List Int) :=
  match s.queue, fuel with
  | [], _ => some s.order
  | _ :: _, 0 => none
  | node :: rest, fuel + 1 => bfsLoop graph fuel (bfsBody graph node rest s.order s.visited)

/-- The state in which `bfs` enters its loop. -/
def bfsInit (start : Int) : BfsState :=
  { queue := [start], order := [], visited := [] }

/-- The function `bfs` with its loop limited to `fuel` passes. -/
def bfsFuel (graph : Graph) (start : Int) (fuel : Nat) : Option (List Int) :=
  if (neighbors graph start).length = 0 then some [start]
  else bfsLoop graph fuel (bfsInit start)

/-- The nodes a run of `bfs` can meet: the start and every node that occurs in some
neighbour list of the graph. -/
def graphNodes (graph : Graph) (start : Int) : List Int :=
  start :: (graph.map Prod.snd).flatten

/-- Number of distinct nodes among the start and the neighbour lists. -/
def nodeBound (graph : Graph) (start : Int) : Nat :=
  (graphNodes graph start).dedup.length

/-- The function `bfs`. The loop is given `nodeBound graph start` passes, which
`bfsFuel_eq_some_bfs` shows to be enough, so the `none` branch is never taken. -/
def bfs (graph : Graph) (start : Int) : List Int :=
  match bfsFuel graph start (nodeBound graph start) with
  | some order => order
  | none => []

/-- The graph `0→1, 1→0`. -/
def cycleGraph : Graph := [(0, [1]), (1, [0])]

/-- The graph of `main`. -/
def mainGraph : Graph := [(0, [1, 2]), (1, [2, 3]), (2, [3]), (3, [4]), (4, [])]


/-- The nodes the inner loop appends to the queue. -/
def freshNodes : List Int → List Int → List Int
  | _, [] => []
  | visited, n :: ns =>
    if n ∈ visited then freshNodes visited ns else n :: freshNodes (n :: visited) ns

/-- Invariant of the queue loop of `bfs`, relative to a list `nodes` of admissible
nodes: no node occurs twice in `order` followed by `queue`; every node of `order`
and every queued node but possibly the front one is marked visited; only admissible
nodes occur. -/
def BfsInv (nodes : List Int) (s : BfsState) : Prop :=
  (s.order ++ s.queue).Nodup ∧ (∀ n ∈ s.order ++ s.queue.tail, n ∈ s.visited) ∧
    (∀ n ∈ s.order ++ s.queue, n ∈ nodes)

/-! ## challenge-4 : reachability and distance -/

/-- The node `v` can be reached from `start` by following zero or more edges of the
graph, an edge leading from a node to each entry of its neighbour list. -/
def Reachable (graph : Graph) (start v : Int) : Prop :=
  Relation.ReflTransGen (fun a b => b ∈ neighbors graph a) start v

/-- The nodes at which the walks of exactly `n` edges from `start` end. -/
def walkEnds (graph : Graph) (start : Int) : Nat → List Int
  | 0 => [start]
  | n + 1 => (walkEnds graph start n).flatMap (neighbors graph)

/-- The shortest-path distance of `v` from `start` is `d`: some walk of `d` edges
from `start` ends at `v`, and no walk of fewer edges does. -/
def IsDist (graph : Graph) (start v : Int) (d : Nat) : Prop :=
  v ∈ walkEnds graph start d ∧ ∀ m, m < d → v ∉ walkEnds graph start m

/-- A levelling `lvl` certifies the sequence `r` as a breadth-first order from
`start`: `r` begins with `start`, at level 0; every node of `r` ends a walk of as
many edges as its level; the levels do not decrease along `r`; and every neighbour
of a node of `r` is in `r`, at most one level higher. -/
def LevelCert (graph : Graph) (start : Int) (lvl : Int → Nat) (r : List Int) : Prop :=
  r.head? = some start ∧ lvl start = 0 ∧
  (∀ x ∈ r, x ∈ walkEnds graph start (lvl x)) ∧
  r.Pairwise (fun a b => lvl a ≤ lvl b) ∧
  (∀ x ∈ r, ∀ w ∈ neighbors graph x, w ∈ r ∧ lvl w ≤ lvl x + 1)

/-- Invariant of the queue loop of `bfs` for a levelling `lvl` of the nodes met so
far: `order` followed by `queue` begins with `start`, at level 0; each of its nodes
ends a walk of as many edges as its level; its levels do not decrease; the queued
nodes are at most one level above the front of the queue; every visited node is in
it; and every neighbour of a node of `order` is in it, at most one level higher. -/
def BfsLevels (graph : Graph) (start : Int) (lvl : Int → Nat) (s : BfsState) : Prop :=
  (s.order ++ s.queue).head? = some start ∧ lvl start = 0 ∧
  (∀ x ∈ s.order ++ s.queue, x ∈ walkEnds graph start (lvl x)) ∧
  (s.order ++ s.queue).Pairwise (fun a b => lvl a ≤ lvl b) ∧
  (∀ x ∈ s.order, ∀ w ∈ neighbors graph x, w ∈ s.order ++ s.queue ∧ lvl w ≤ lvl x + 1) ∧
  (∀ h, s.queue.head? = some h → ∀ x ∈ s.queue, lvl x ≤ lvl h + 1) ∧
  (∀ x ∈ s.visited, x ∈ s.order ++ s.queue)

/-- The levelling after one pass of the loop: the nodes in `fresh` get the level
`level`, the others keep theirs. -/
def raiseLevels (lvl : Int → Nat) (fresh : List Int) (level : Nat) : Int → Nat :=
  fun x => if x ∈ fresh then level else lvl x

/-! ## challenge-4 : the worker pool -/

/-- The Go map `results` of type `map[int][]int`. -/
abbrev ResultMap := Int → Option (List Int)

/-- The empty map `map[int][]int{}`. -/
def emptyResults : ResultMap := fun _ => none

/-- The assignment `results[start] = result`. -/
def storeResult (results : ResultMap) (start : Int) (result : List Int) : ResultMap :=
  fun k => if k = start then some result else results k

/-- The shared state of one call of `ConcurrentBFSQueries` once the workers run.
`jobs` are the queries the sending goroutine has still to put on the unbuffered
channel, in order; `workers` has one entry per worker goroutine, `some start` from
the moment the worker received `start` from the channel until it has stored the
result under the mutex, `none` while it waits in `range jobs`. -/
structure PoolState where
  jobs : List Int
  workers : List (Option Int)
  results : ResultMap

/-- The state after `wg.Add(numWorkers)` and the `go` statements. -/
def poolInit (queries : List Int) (numWorkers : Nat) : PoolState :=
  { jobs := queries, workers := List.replicate numWorkers none, results := emptyResults }

/-- The next atomic action of worker `i`, when it has one: a worker holding `start`
computes `bfs(graph, start)` and stores it under the mutex; a waiting worker takes
the next query off the channel. A waiting worker has no action while nothing is
left to send (it leaves its loop), and there is no worker `i` beyond the pool. -/
def workerStep (graph : Graph) (s : PoolState) (i : Nat) : Option PoolState :=
  match s.workers[i]? with
  | none => none
  | some (some start) =>
    some { jobs := s.jobs, workers := s.workers.set i none,
           results := storeResult s.results start (bfs graph start) }
  | some none =>
    match s.jobs with
    | [] => none
    | query :: rest =>
      some { jobs := rest, workers := s.workers.set i (some query), results := s.results }

/-- Runs the pool under a schedule: the list of the workers that are given the
processor, in order. An entry naming a worker without an action is passed over. -/
def runSchedule (graph : Graph) : List Nat → PoolState → PoolState
  | [], s => s
  | i :: sched, s =>
    match workerStep graph s i with
    | some s2 => runSchedule graph sched s2
    | none => runSchedule graph sched s

/-- The condition under which `wg.Wait()` returns: every query has been sent (the
channel is closed) and no worker holds a query, so every worker has left its loop. -/
def poolDone (s : PoolState) : Bool :=
  s.jobs.isEmpty && s.workers.all Option.isNone

/-- The function `ConcurrentBFSQueries` under a schedule of its workers: the map it
returns, `none` when the schedule stops before `wg.Wait()` can return. -/
def ConcurrentBFSQueries (graph : Graph) (queries : List Int) (numWorkers : Int)
    (sched : List Nat) : Option ResultMap :=
  if numWorkers ≤ 0 then some emptyResults
  else
    let s := runSchedule graph sched (poolInit queries numWorkers.toNat)
    if poolDone s then some s.results else none

/-- What remains to be done in a pool state: two actions per unsent query, one per
worker holding a query. -/
def poolWork (s : PoolState) : Nat :=
  2 * s.jobs.length + (s.workers.filter Option.isSome).length

/-- Invariant of the pool for the query list `queries`: stored entries are the
traversals of submitted queries, and every submitted query is unsent, held by a
worker, or stored. -/
def PoolInv (graph : Graph) (queries : List Int) (s : PoolState) : Prop :=
  (∀ q r, s.results q = some r → r = bfs graph q ∧ q ∈ queries) ∧
  (∀ q ∈ queries, q ∈ s.jobs ∨ some q ∈ s.workers ∨ s.results q = some (bfs graph q)) ∧
  (∀ q ∈ s.jobs, q ∈ queries) ∧ (∀ q, some q ∈ s.workers → q ∈ queries)

/-! ## challenge-22 : `MinCoins` -/

/-- A mathematical integer reduced to the 64-bit two's complement range of Go's
`int`. -/
def wrapInt (x : Int) : Int :=
  (x + 2 ^ 63) % 2 ^ 64 - 2 ^ 63

/-- The call `sort.Sort(sort.Reverse(sort.IntSlice(denominations)))`: the slice in
descending order. -/
def sortDescending (denominations : List Int) : List Int :=
  denominations.insertionSort (fun a b => b ≤ a)

/-- The loop of `MinCoins` over the sorted denominations, on the variables `min` and
`amount`; `none` is the run-time panic of an integer division by zero. -/
def minCoinsLoop : List Int → Int → Int → Option (Int × Int)
  | [], min, amount => some (min, amount)
  | val :: rest, min, amount =>
    if val ≤ amount then
      if val = 0 then none
      else
        let count := wrapInt (Int.tdiv amount val)
        minCoinsLoop rest (wrapInt (min + count)) (wrapInt (amount - wrapInt (val * count)))
    else minCoinsLoop rest min amount

/-- The function `MinCoins`. -/
def MinCoins (amount : Int) (denominations : List Int) : Option Int :=
  match minCoinsLoop (sortDescending denominations) 0 amount with
  | none => none
  | some (min, left) => if left = 0 then some min else some (-1)

/-- The list `coins` makes `amount` from `denominations`: each coin is one of the
denominations (repetition allowed) and the values sum to the amount. -/
def MakesChange (denominations : List Int) (amount : Int) (coins : List Int) : Prop :=
  (∀ c ∈ coins, c ∈ denominations) ∧ coins.sum = amount

/-! ## challenge-2 : `ReverseString` -/

/-- The assignment `r[i], r[j] = r[j], r[i]`. -/
def swapRunes (r : List Char) (i j : Nat) : List Char :=
  (r.set i (r.getD j default)).set j (r.getD i default)

/-- The loop `for i < j` of `ReverseString` run for at most `fuel` passes: `some r`
when the condition `i < j` failed within that many passes, `none` when a pass is
still due. The body leaves `i` and `j` as they are. -/
def reverseLoop : Nat → List Char → Int → Int → Option (List Char)
  | 0, r, i, j => if i < j then none else some r
  | fuel + 1, r, i, j =>
    if i < j then reverseLoop fuel (swapRunes r i.toNat j.toNat) i j else some r

/-- The function `ReverseString` on the runes of `s`, its loop limited to `fuel`
passes. -/
def ReverseString (fuel : Nat) (s : List Char) : Option (List Char) :=
  reverseLoop fuel s 0 ((s.length : Int) - 1)

/-! ## challenge-6 : `CountWordFrequency` -/

/-- The functions of Go's `unicode` package that `CountWordFrequency` calls. -/
structure RuneClass where
  isLetter : Char → Bool
  isDigit : Char → Bool
  toLower : Char → Char

/-- The three functions on the ASCII range, where they agree with Go's. -/
def asciiRunes : RuneClass :=
  { isLetter := Char.isAlpha, isDigit := Char.isDigit, toLower := Char.toLower }

/-- The Go map `vwf` of type `map[string]int`. -/
abbrev FreqMap := List Char → Option Nat

/-- The map `make(map[string]int, len(text))`. -/
def emptyFreq : FreqMap := fun _ => none

/-- The statement `vwf[word]++`. -/
def incrWord (vwf : FreqMap) (word : List Char) : FreqMap :=
  fun k => if k = word then some ((vwf k).getD 0 + 1) else vwf k

/-- The variables `builder` and `vwf` of `CountWordFrequency`. -/
structure WordState where
  builder : List Char
  vwf : FreqMap

/-- The closure `flushWord`. -/
def flushWord (s : WordState) : WordState :=
  if 0 < s.builder.length then { builder := [], vwf := incrWord s.vwf s.builder } else s

/-- The rune of the case `val == '\x27'`, the apostrophe. -/
def apostrophe : Char := Char.ofNat 39

/-- The `switch` in the loop over the runes of the text. -/
def wordStep (u : RuneClass) (s : WordState) (val : Char) : WordState :=
  if u.isLetter val || u.isDigit val then
    { builder := s.builder ++ [u.toLower val], vwf := s.vwf }
  else if val = apostrophe then s
  else flushWord s

/-- The function `CountWordFrequency`. -/
def CountWordFrequency (u : RuneClass) (text : List Char) : FreqMap :=
  (flushWord (text.foldl (wordStep u) { builder := [], vwf := emptyFreq })).vwf

/-- Words in the sense of the doc comment: the maximal runs of letters and digits of
the text, every other character separating words, each run in lowercase. -/
def docWords (u : RuneClass) (text : List Char) : List (List Char) :=
  ((text.splitOnP (fun c => !(u.isLetter c || u.isDigit c))).filter
    (fun w => !w.isEmpty)).map (List.map u.toLower)

/-- The words still to be counted when the builder holds `builder` and `text` is
still to be read: the runs of `text`, the first one continuing the builder. -/
def pendingWords (u : RuneClass) (builder text : List Char) : List (List Char) :=
  (((text.splitOnP (fun c => !(u.isLetter c || u.isDigit c))).map
    (List.map u.toLower)).modifyHead (fun w => builder ++ w)).filter (fun w => !w.isEmpty)

/-- The text without its apostrophes. -/
def dropApostrophes (text : List Char) : List Char :=
  text.filter (fun c => decide (c ≠ apostrophe))

/-- The map of a list of words to their numbers of occurrences. -/
def wordCounts (words : List (List Char)) : FreqMap :=
  fun k => if k ∈ words then some (words.count k) else none

/-! ## gin/challenge-2-middleware : `AuthMiddleware` -/

/-- The Go library function `strings.Contains`. -/
def stringsContains (s substr : String) : Bool :=
  s.toList.tails.any (fun t => substr.toList.isPrefixOf t)

/-- The parts of a `gin.Context` that `AuthMiddleware` reads and writes: the value of
the request header `X-API-Key` (the empty string when the header is missing); the
response writer, namely whether the response has been written (`c.Writer.Written()`),
its status (`c.Writer.Status()`, 200 until one is set) and the `error` messages of
the JSON bodies written so far, in order; the abort flag; the key/value store of
`c.Set`; and the number of calls of `c.Next()`. -/
structure Context where
  apiKey : String
  written : Bool
  status : Nat
  body : List String
  aborted : Bool
  keys : List (String × String)
  nextCalls : Nat
deriving DecidableEq, Repr

/-- A context as the middleware receives it for a request whose header `X-API-Key`
has the given value, no handler before it having written a response. -/
def requestContext (apiKey : String) : Context :=
  { apiKey := apiKey, written := false, status := 200, body := [], aborted := false,
    keys := [], nextCalls := 0 }

/-- The constant `http.StatusUnauthorized`. -/
def statusUnauthorized : Nat := 401

/-- The call `c.JSON(code, gin.H{"error": msg})`. The writer of gin takes a status
`code > 0` only while the response is not yet written, a status already written
being kept; the body is then written after what was written before. -/
def writeJSON (c : Context) (code : Nat) (msg : String) : Context :=
  { c with status := if c.written ∨ code = 0 then c.status else code, written := true,
           body := c.body ++ [msg] }

/-- The calls `c.JSON(http.StatusUnauthorized, gin.H{"error": msg})` and `c.Abort()`
followed by `return`. -/
def rejectRequest (c : Context) (msg : String) : Context :=
  { writeJSON c statusUnauthorized msg with aborted := true }

/-- The closure `isValidApiKey`. -/
def isValidApiKey (apiKey : String) : Bool :=
  if stringsContains apiKey "admin-key" || stringsContains apiKey "user-key" then true
  else false

/-- The calls `c.Set("role", role)` and `c.Next()`. -/
def acceptRequest (c : Context) (role : String) : Context :=
  { c with keys := ("role", role) :: c.keys, nextCalls := c.nextCalls + 1 }

/-- The handler returned by `AuthMiddleware`. -/
def AuthMiddleware (c : Context) : Context :=
  if c.apiKey = "" then rejectRequest c "API Key required"
  else if !isValidApiKey c.apiKey then rejectRequest c "Invalid API Key"
  else if c.apiKey = "admin-key-123" then acceptRequest c "admin"
  else if c.apiKey = "user-key-456" then acceptRequest c "user"
  else rejectRequest c "Invalid API Key"

/-! # Properties -/

/-! ## challenge-4 : the traversal -/


theorem visitNeighbors_eq (queue visited ns : List Int) :
    visitNeighbors queue visited ns
      = (queue ++ freshNodes visited ns, (freshNodes visited ns).reverse ++ visited) := by
  induction ns generalizing queue visited with
  | nil => simp [visitNeighbors, freshNodes]
  | cons n ns ih =>
    by_cases h : n ∈ visited
    · simp [visitNeighbors, freshNodes, h, ih]
    · simp [visitNeighbors, freshNodes, h, ih]

theorem freshNodes_sound (visited ns : List Int) :
    ∀ x ∈ freshNodes visited ns, x ∈ ns ∧ x ∉ visited := by
  induction ns generalizing visited with
  | nil => simp [freshNodes]
  | cons n ns ih =>
    intro x hx
    by_cases h : n ∈ visited
    · simp only [freshNodes, h, if_true] at hx
      exact ⟨List.mem_cons_of_mem _ (ih visited x hx).1, (ih visited x hx).2⟩
    · simp only [freshNodes, h, if_false, List.mem_cons] at hx
      rcases hx with rfl | hx
      · exact ⟨List.mem_cons_self _ _, h⟩
      · have := ih (n :: visited) x hx
        exact ⟨List.mem_cons_of_mem _ this.1, fun hv => this.2 (List.mem_cons_of_mem _ hv)⟩

theorem freshNodes_complete (visited ns : List Int) :
    ∀ x ∈ ns, x ∈ visited ∨ x ∈ freshNodes visited ns := by
  induction ns generalizing visited with
  | nil => simp
  | cons n ns ih =>
    intro x hx
    by_cases h : n ∈ visited
    · simp only [freshNodes, h, if_true]
      rcases List.mem_cons.1 hx with rfl | hx
      · exact Or.inl h
      · exact ih visited x hx
    · simp only [freshNodes, h, if_false, List.mem_cons]
      rcases List.mem_cons.1 hx with rfl | hx
      · exact Or.inr (Or.inl rfl)
      · rcases ih (n :: visited) x hx with hv | hf
        · rcases List.mem_cons.1 hv with rfl | hv
          · exact Or.inr (Or.inl rfl)
          · exact Or.inl hv
        · exact Or.inr (Or.inr hf)

theorem freshNodes_nodup (visited ns : List Int) : (freshNodes visited ns).Nodup := by
  induction ns generalizing visited with
  | nil => simp [freshNodes]
  | cons n ns ih =>
    by_cases h : n ∈ visited
    · simp only [freshNodes, h, if_true]
      exact ih visited
    · simp only [freshNodes, h, if_false, List.nodup_cons]
      exact ⟨fun hn => (freshNodes_sound (n :: visited) ns n hn).2 (List.mem_cons_self _ _),
        ih (n :: visited)⟩

theorem neighbors_subset_graphNodes (graph : Graph) (start node : Int) :
    ∀ x ∈ neighbors graph node, x ∈ graphNodes graph start := by
  intro x hx
  unfold neighbors at hx
  cases hl : graph.lookup node with
  | none => simp [hl] at hx
  | some ns =>
    simp only [hl] at hx
    have hmem : (node, ns) ∈ graph := by
      clear hx
      induction graph with
      | nil => simp at hl
      | cons kv rest ih =>
        obtain ⟨k, v⟩ := kv
        by_cases hk : node = k
        · subst hk
          simp [List.lookup] at hl
          simp [hl]
        · have hk2 : (node == k) = false := by simpa using hk
          simp only [List.lookup, hk2] at hl
          exact List.mem_cons_of_mem _ (ih hl)
    unfold graphNodes
    refine List.mem_cons_of_mem _ ?_
    simp only [List.mem_flatten, List.mem_map]
    exact ⟨ns, ⟨(node, ns), hmem, rfl⟩, hx⟩

theorem bfsInit_inv (graph : Graph) (start : Int) :
    BfsInv (graphNodes graph start) (bfsInit start) := by
  refine ⟨by simp [bfsInit], by simp [bfsInit], ?_⟩
  intro n hn
  simp [bfsInit] at hn
  simp [graphNodes, hn]

theorem bfsBody_inv (graph : Graph) (nodes : List Int)
    (hN : ∀ node, ∀ x ∈ neighbors graph node, x ∈ nodes)
    (node : Int) (rest order visited : List Int)
    (h : BfsInv nodes ⟨node :: rest, order, visited⟩) :
    BfsInv nodes (bfsBody graph node rest order visited) := by
  obtain ⟨hnd, hvis, hsub⟩ := h
  simp only [List.tail_cons] at hvis
  have hs := freshNodes_sound (node :: visited) (neighbors graph node)
  have hfn := freshNodes_nodup (node :: visited) (neighbors graph node)
  simp only [bfsBody, visitNeighbors_eq]
  refine ⟨?_, ?_, ?_⟩
  · have e : (order ++ [node]) ++ (rest ++ freshNodes (node :: visited) (neighbors graph node))
        = (order ++ node :: rest) ++ freshNodes (node :: visited) (neighbors graph node) := by
      simp
    rw [e]
    refine List.nodup_append.2 ⟨hnd, hfn, ?_⟩
    intro x hx hf
    have hnot := (hs x hf).2
    rcases List.mem_append.1 hx with ho | hq
    · exact hnot (List.mem_cons_of_mem _ (hvis x (List.mem_append_left _ ho)))
    · rcases List.mem_cons.1 hq with rfl | hr
      · exact hnot (List.mem_cons_self _ _)
      · exact hnot (List.mem_cons_of_mem _ (hvis x (List.mem_append_right _ hr)))
  · intro n hn
    simp only [List.mem_append, List.mem_reverse, List.mem_cons]
    rcases List.mem_append.1 hn with ho | ht
    · rcases List.mem_append.1 ho with ho | hs1
      · exact Or.inr (Or.inr (hvis n (List.mem_append_left _ ho)))
      · simp only [List.mem_singleton] at hs1
        exact Or.inr (Or.inl hs1)
    · rcases List.mem_append.1 (List.mem_of_mem_tail ht) with hr | hf
      · exact Or.inr (Or.inr (hvis n (List.mem_append_right _ hr)))
      · exact Or.inl hf
  · intro n hn
    rcases List.mem_append.1 hn with ho | hq
    · rcases List.mem_append.1 ho with ho | hs1
      · exact hsub n (List.mem_append_left _ ho)
      · simp only [List.mem_singleton] at hs1
        subst hs1
        exact hsub _ (List.mem_append_right _ (List.mem_cons_self _ _))
    · rcases List.mem_append.1 hq with hr | hf
      · exact hsub n (List.mem_append_right _ (List.mem_cons_of_mem _ hr))
      · exact hN node n (hs n hf).1

theorem nodup_length_le_dedup (l nodes : List Int) (hnd : l.Nodup)
    (hsub : ∀ n ∈ l, n ∈ nodes) : l.length ≤ nodes.dedup.length := by
  have : l ⊆ nodes.dedup := fun n hn => List.mem_dedup.2 (hsub n hn)
  exact (List.subperm_of_subset hnd this).length_le

/-- From a state satisfying the invariant the loop ends within the passes that the
admissible nodes not yet in `order` allow, and its result lists admissible nodes
without repetition. -/
theorem bfsLoop_total (graph : Graph) (nodes : List Int)
    (hN : ∀ node, ∀ x ∈ neighbors graph node, x ∈ nodes) :
    ∀ (fuel : Nat) (s : BfsState), BfsInv nodes s →
      nodes.dedup.length ≤ s.order.length + fuel →
      ∃ r, bfsLoop graph fuel s = some r ∧ r.Nodup ∧ (∀ n ∈ r, n ∈ nodes) := by
  intro fuel
  induction fuel with
  | zero =>
    intro s hinv hlen
    obtain ⟨queue, order, visited⟩ := s
    cases queue with
    | nil =>
      refine ⟨order, by simp [bfsLoop], ?_, ?_⟩
      · simpa using hinv.1
      · simpa using hinv.2.2
    | cons node rest =>
      exfalso
      have := nodup_length_le_dedup _ nodes hinv.1 hinv.2.2
      simp at this hlen
      omega
  | succ fuel ih =>
    intro s hinv hlen
    obtain ⟨queue, order, visited⟩ := s
    cases queue with
    | nil =>
      refine ⟨order, by simp [bfsLoop], ?_, ?_⟩
      · simpa using hinv.1
      · simpa using hinv.2.2
    | cons node rest =>
      have hb := bfsBody_inv graph nodes hN node rest order visited hinv
      have hl : nodes.dedup.length ≤ (bfsBody graph node rest order visited).order.length + fuel := by
        simp [bfsBody] at hlen ⊢
        omega
      obtain ⟨r, hr, h1, h2⟩ := ih _ hb hl
      exact ⟨r, by simpa [bfsLoop] using hr, h1, h2⟩

theorem bfsLoop_mono (graph : Graph) :
    ∀ (fuel fuel2 : Nat) (s : BfsState) (r : List Int), fuel ≤ fuel2 →
      bfsLoop graph fuel s = some r → bfsLoop graph fuel2 s = some r := by
  intro fuel
  induction fuel with
  | zero =>
    intro fuel2 s r _ h
    obtain ⟨queue, order, visited⟩ := s
    cases queue with
    | nil => cases fuel2 <;> simpa [bfsLoop] using h
    | cons node rest => simp [bfsLoop] at h
  | succ fuel ih =>
    intro fuel2 s r hle h
    obtain ⟨queue, order, visited⟩ := s
    cases queue with
    | nil => cases fuel2 <;> simpa [bfsLoop] using h
    | cons node rest =>
      cases fuel2 with
      | zero => omega
      | succ fuel2 =>
        simp only [bfsLoop] at h ⊢
        exact ih fuel2 _ r (by omega) h

/-- With `nodeBound graph start` passes or more the fuel-limited `bfs` returns, and
what it returns is `bfs graph start`. -/
theorem bfsFuel_eq_some_bfs (graph : Graph) (start : Int) (fuel : Nat)
    (h : nodeBound graph start ≤ fuel) :
    bfsFuel graph start fuel = some (bfs graph start) := by
  by_cases h0 : (neighbors graph start).length = 0
  · simp [bfs, bfsFuel, h0]
  · obtain ⟨r, hr, -, -⟩ := bfsLoop_total graph (graphNodes graph start)
      (fun node => neighbors_subset_graphNodes graph start node)
      (nodeBound graph start) (bfsInit start) (bfsInit_inv graph start)
      (by simp [nodeBound, bfsInit])
    have h2 := bfsLoop_mono graph _ fuel _ r h hr
    simp [bfs, bfsFuel, h0, hr, h2]

theorem bfs_nodup_aux (graph : Graph) (start : Int) :
    (bfs graph start).Nodup ∧ ∀ n ∈ bfs graph start, n ∈ graphNodes graph start := by
  by_cases h0 : (neighbors graph start).length = 0
  · simp [bfs, bfsFuel, h0, graphNodes]
  · obtain ⟨r, hr, h1, h2⟩ := bfsLoop_total graph (graphNodes graph start)
      (fun node => neighbors_subset_graphNodes graph start node)
      (nodeBound graph start) (bfsInit start) (bfsInit_inv graph start)
      (by simp [nodeBound, bfsInit])
    simp only [bfs, bfsFuel, h0, hr, if_false]
    exact ⟨h1, h2⟩

/-- C4. The sequence returned by `bfs` has no node twice, whatever the graph (cycles
and self-loops included) and the start; on the graph `0→1, 1→0` from `0` it is
`[0, 1]`. -/
theorem bfs_no_repeated_node :
    (∀ (graph : Graph) (start : Int), (bfs graph start).Nodup) ∧
      bfs cycleGraph 0 = [0, 1] ∧ bfs [(0, [0, 1]), (1, [1, 0])] 0 = [0, 1] :=
  ⟨fun graph start => (bfs_nodup_aux graph start).1, by decide, by decide⟩

/-- C5. `bfs` terminates on every (finite) graph: given as many passes as there are
distinct nodes among the start and the neighbour lists, or more, its queue loop
reaches the empty queue and returns `bfs graph start`; the nodes it took off the
queue, one per pass, are pairwise distinct and each is the start or occurs in a
neighbour list. -/
theorem bfs_terminates (graph : Graph) (start : Int) :
    (∀ extra : Nat,
      bfsFuel graph start (nodeBound graph start + extra) = some (bfs graph start)) ∧
    (bfs graph start).Nodup ∧ (∀ n ∈ bfs graph start, n ∈ graphNodes graph start) ∧
    (bfs graph start).length ≤ nodeBound graph start :=
  ⟨fun _ => bfsFuel_eq_some_bfs graph start _ (Nat.le_add_right _ _),
    (bfs_nodup_aux graph start).1, (bfs_nodup_aux graph start).2,
    nodup_length_le_dedup _ _ (bfs_nodup_aux graph start).1 (bfs_nodup_aux graph start).2⟩

/-- C6. For a start node without neighbours, its list being empty or the node not
being a key of the graph, `bfs` returns the one-element sequence `[start]`. -/
theorem bfs_no_neighbors (graph : Graph) (start : Int)
    (h : graph.lookup start = some [] ∨ graph.lookup start = none) :
    bfs graph start = [start] := by
  have h0 : (neighbors graph start).length = 0 := by
    rcases h with h | h <;> simp [neighbors, h]
  simp [bfs, bfsFuel, h0]

/-- Witness of C6 on the graph of `main`: node `4` has an empty list, node `7` is
absent. -/
theorem bfs_no_neighbors_witness :
    (mainGraph.lookup 4 = some [] ∧ bfs mainGraph 4 = [4]) ∧
      (mainGraph.lookup 7 = none ∧ bfs mainGraph 7 = [7]) :=
  ⟨⟨by decide, bfs_no_neighbors mainGraph 4 (Or.inl (by decide))⟩,
    ⟨by decide, bfs_no_neighbors mainGraph 7 (Or.inr (by decide))⟩⟩

/-! ## challenge-4 : the worker pool -/

theorem mem_set_of_ne {α : Type} (l : List α) (i : Nat) (a b c : α)
    (ha : a ∈ l) (hb : l[i]? = some b) (hne : a ≠ b) : a ∈ l.set i c := by
  induction l generalizing i with
  | nil => simp at ha
  | cons x xs ih =>
    cases i with
    | zero =>
      simp only [List.getElem?_cons_zero, Option.some.injEq] at hb
      subst hb
      rcases List.mem_cons.1 ha with h | h
      · exact absurd h hne
      · simp [h]
    | succ i =>
      simp only [List.getElem?_cons_succ] at hb
      rcases List.mem_cons.1 ha with h | h
      · simp [h]
      · simp only [List.set_cons_succ, List.mem_cons]
        exact Or.inr (ih i h hb)

theorem mem_set_self {α : Type} (l : List α) (i : Nat) (b c : α)
    (hb : l[i]? = some b) : c ∈ l.set i c := by
  induction l generalizing i with
  | nil => simp at hb
  | cons x xs ih =>
    cases i with
    | zero => simp
    | succ i =>
      simp only [List.getElem?_cons_succ] at hb
      simp only [List.set_cons_succ, List.mem_cons]
      exact Or.inr (ih i hb)

theorem mem_of_getElem? {α : Type} (l : List α) (i : Nat) (b : α)
    (hb : l[i]? = some b) : b ∈ l := by
  induction l generalizing i with
  | nil => simp at hb
  | cons x xs ih =>
    cases i with
    | zero =>
      simp only [List.getElem?_cons_zero, Option.some.injEq] at hb
      simp [hb]
    | succ i =>
      simp only [List.getElem?_cons_succ] at hb
      exact List.mem_cons_of_mem _ (ih i hb)

theorem busy_set_none (l : List (Option Int)) (i : Nat) (start : Int)
    (hb : l[i]? = some (some start)) :
    ((l.set i none).filter Option.isSome).length + 1 = (l.filter Option.isSome).length := by
  induction l generalizing i with
  | nil => simp at hb
  | cons x xs ih =>
    cases i with
    | zero =>
      simp only [List.getElem?_cons_zero, Option.some.injEq] at hb
      subst hb
      simp
    | succ i =>
      simp only [List.getElem?_cons_succ] at hb
      have := ih i hb
      cases x <;> simp [List.filter_cons] <;> omega

theorem busy_set_some (l : List (Option Int)) (i : Nat) (query : Int)
    (hb : l[i]? = some none) :
    ((l.set i (some query)).filter Option.isSome).length
      = (l.filter Option.isSome).length + 1 := by
  induction l generalizing i with
  | nil => simp at hb
  | cons x xs ih =>
    cases i with
    | zero =>
      simp only [List.getElem?_cons_zero, Option.some.injEq] at hb
      subst hb
      simp
    | succ i =>
      simp only [List.getElem?_cons_succ] at hb
      have := ih i hb
      cases x <;> simp [List.filter_cons] <;> omega

theorem poolInit_inv (graph : Graph) (queries : List Int) (n : Nat) :
    PoolInv graph queries (poolInit queries n) := by
  refine ⟨?_, ?_, ?_, ?_⟩
  · intro q r h
    simp [poolInit, emptyResults] at h
  · intro q hq
    exact Or.inl hq
  · intro q hq
    exact hq
  · intro q hq
    simp [poolInit, List.mem_replicate] at hq

theorem workerStep_inv (graph : Graph) (queries : List Int) (s s2 : PoolState) (i : Nat)
    (hinv : PoolInv graph queries s) (hstep : workerStep graph s i = some s2) :
    PoolInv graph queries s2 := by
  obtain ⟨h1, h2, h3, h4⟩ := hinv
  unfold workerStep at hstep
  cases hw : s.workers[i]? with
  | none => simp [hw] at hstep
  | some w =>
    cases w with
    | some start =>
      simp only [hw, Option.some.injEq] at hstep
      subst hstep
      have hmem : some start ∈ s.workers := mem_of_getElem? _ _ _ hw
      refine ⟨?_, ?_, h3, ?_⟩
      · intro q r hr
        by_cases hq : q = start
        · subst hq
          simp only [storeResult, if_true, Option.some.injEq] at hr
          exact ⟨hr.symm, h4 q hmem⟩
        · simp only [storeResult, hq, if_false] at hr
          exact h1 q r hr
      · intro q hq
        by_cases hqs : q = start
        · subst hqs
          exact Or.inr (Or.inr (by simp [storeResult]))
        · rcases h2 q hq with hj | hwk | hres
          · exact Or.inl hj
          · refine Or.inr (Or.inl (mem_set_of_ne _ i _ _ _ hwk hw ?_))
            simpa using hqs
          · exact Or.inr (Or.inr (by simpa [storeResult, hqs] using hres))
      · intro q hq
        rcases List.mem_or_eq_of_mem_set hq with h | h
        · exact h4 q h
        · simp at h
    | none =>
      cases hj : s.jobs with
      | nil => simp [hw, hj] at hstep
      | cons query rest =>
        simp only [hw, hj, Option.some.injEq] at hstep
        subst hstep
        refine ⟨h1, ?_, ?_, ?_⟩
        · intro q hq
          rcases h2 q hq with hjq | hwk | hres
          · rw [hj] at hjq
            rcases List.mem_cons.1 hjq with rfl | hr
            · exact Or.inr (Or.inl (mem_set_self _ i _ _ hw))
            · exact Or.inl hr
          · exact Or.inr (Or.inl (mem_set_of_ne _ i _ _ _ hwk hw (by simp)))
          · exact Or.inr (Or.inr hres)
        · intro q hq
          exact h3 q (by rw [hj]; exact List.mem_cons_of_mem _ hq)
        · intro q hq
          rcases List.mem_or_eq_of_mem_set hq with h | h
          · exact h4 q h
          · simp only [Option.some.injEq] at h
            subst h
            exact h3 q (by rw [hj]; exact List.mem_cons_self _ _)

theorem runSchedule_inv (graph : Graph) (queries : List Int) (sched : List Nat) :
    ∀ s : PoolState, PoolInv graph queries s →
      PoolInv graph queries (runSchedule graph sched s) := by
  induction sched with
  | nil => intro s h; exact h
  | cons i sched ih =>
    intro s h
    simp only [runSchedule]
    cases hstep : workerStep graph s i with
    | none => exact ih s h
    | some s2 => exact ih s2 (workerStep_inv graph queries s s2 i h hstep)

theorem runSchedule_append (graph : Graph) (sched ext : List Nat) :
    ∀ s : PoolState,
      runSchedule graph (sched ++ ext) s = runSchedule graph ext (runSchedule graph sched s) := by
  induction sched with
  | nil => intro s; rfl
  | cons i sched ih =>
    intro s
    simp only [List.cons_append, runSchedule]
    cases workerStep graph s i with
    | none => exact ih s
    | some s2 => exact ih s2

theorem workerStep_length (graph : Graph) (s s2 : PoolState) (i : Nat)
    (hstep : workerStep graph s i = some s2) : s2.workers.length = s.workers.length := by
  unfold workerStep at hstep
  cases hw : s.workers[i]? with
  | none => simp [hw] at hstep
  | some w =>
    cases w with
    | some start =>
      simp only [hw, Option.some.injEq] at hstep
      subst hstep
      simp
    | none =>
      cases hj : s.jobs with
      | nil => simp [hw, hj] at hstep
      | cons query rest =>
        simp only [hw, hj, Option.some.injEq] at hstep
        subst hstep
        simp

theorem runSchedule_length (graph : Graph) (sched : List Nat) :
    ∀ s : PoolState, (runSchedule graph sched s).workers.length = s.workers.length := by
  induction sched with
  | nil => intro s; rfl
  | cons i sched ih =>
    intro s
    simp only [runSchedule]
    cases hstep : workerStep graph s i with
    | none => exact ih s
    | some s2 => rw [ih s2, workerStep_length graph s s2 i hstep]

/-- Every action of a worker reduces the work that remains, so a run makes at most
`poolWork` actions. -/
theorem workerStep_decreases (graph : Graph) (s s2 : PoolState) (i : Nat)
    (hstep : workerStep graph s i = some s2) : poolWork s2 < poolWork s := by
  unfold workerStep at hstep
  cases hw : s.workers[i]? with
  | none => simp [hw] at hstep
  | some w =>
    cases w with
    | some start =>
      simp only [hw, Option.some.injEq] at hstep
      subst hstep
      have := busy_set_none s.workers i start hw
      simp only [poolWork]
      omega
    | none =>
      cases hj : s.jobs with
      | nil => simp [hw, hj] at hstep
      | cons query rest =>
        simp only [hw, hj, Option.some.injEq] at hstep
        subst hstep
        have := busy_set_some s.workers i query hw
        simp only [poolWork, hj, List.length_cons]
        omega

theorem pool_progress (graph : Graph) (s : PoolState) (hw : 1 ≤ s.workers.length)
    (hnd : poolDone s = false) :
    ∃ i s2, workerStep graph s i = some s2 ∧ poolWork s2 < poolWork s := by
  by_cases hb : ∃ start, some start ∈ s.workers
  · obtain ⟨start, hmem⟩ := hb
    obtain ⟨i, hi⟩ := List.getElem?_of_mem hmem
    refine ⟨i, PoolState.mk s.jobs (s.workers.set i none)
      (storeResult s.results start (bfs graph start)), by simp only [workerStep, hi], ?_⟩
    have := busy_set_none s.workers i start hi
    simp only [poolWork]
    omega
  · have hall : ∀ w ∈ s.workers, w = none := by
      intro w hwm
      cases w with
      | none => rfl
      | some start => exact absurd ⟨start, hwm⟩ hb
    have h0 : s.workers[0]? = some none := by
      cases hws : s.workers with
      | nil => simp [hws] at hw
      | cons w ws =>
        have := hall w (by simp [hws])
        simp [this]
    cases hj : s.jobs with
    | nil =>
      exfalso
      have : poolDone s = true := by
        simp only [poolDone, hj, List.isEmpty_nil, Bool.true_and, List.all_eq_true]
        intro w hwm
        simp [hall w hwm]
      simp [this] at hnd
    | cons query rest =>
      refine ⟨0, PoolState.mk rest (s.workers.set 0 (some query)) s.results,
        by simp only [workerStep, h0, hj], ?_⟩
      have := busy_set_some s.workers 0 query h0
      simp only [poolWork, hj, List.length_cons]
      omega

theorem pool_completes (graph : Graph) :
    ∀ (n : Nat) (s : PoolState), poolWork s ≤ n → 1 ≤ s.workers.length →
      ∃ ext, poolDone (runSchedule graph ext s) = true := by
  intro n
  induction n with
  | zero =>
    intro s hn hw
    cases hd : poolDone s with
    | true => exact ⟨[], hd⟩
    | false =>
      obtain ⟨i, s2, -, hlt⟩ := pool_progress graph s hw hd
      omega
  | succ n ih =>
    intro s hn hw
    cases hd : poolDone s with
    | true => exact ⟨[], hd⟩
    | false =>
      obtain ⟨i, s2, hstep, hlt⟩ := pool_progress graph s hw hd
      obtain ⟨ext, hext⟩ := ih s2 (by omega)
        (by rw [workerStep_length graph s s2 i hstep]; exact hw)
      exact ⟨i :: ext, by simpa [runSchedule, hstep] using hext⟩

theorem poolDone_results (graph : Graph) (queries : List Int) (s : PoolState)
    (hinv : PoolInv graph queries s) (hd : poolDone s = true) :
    ∀ q, s.results q = if q ∈ queries then some (bfs graph q) else none := by
  obtain ⟨h1, h2, -, -⟩ := hinv
  simp only [poolDone, Bool.and_eq_true, List.isEmpty_iff, List.all_eq_true] at hd
  intro q
  by_cases hq : q ∈ queries
  · simp only [hq, if_true]
    rcases h2 q hq with hj | hwk | hres
    · simp [hd.1] at hj
    · have := hd.2 _ hwk
      simp at this
    · exact hres
  · simp only [hq, if_false]
    cases hr : s.results q with
    | none => rfl
    | some r => exact absurd (h1 q r hr).2 hq

theorem concurrent_some (graph : Graph) (queries : List Int) (numWorkers : Int)
    (h : 1 ≤ numWorkers) (sched : List Nat) (m : ResultMap)
    (hm : ConcurrentBFSQueries graph queries numWorkers sched = some m) :
    ∀ q, m q = if q ∈ queries then some (bfs graph q) else none := by
  have hpos : ¬ numWorkers ≤ 0 := by omega
  simp only [ConcurrentBFSQueries, hpos, if_false] at hm
  cases hd : poolDone (runSchedule graph sched (poolInit queries numWorkers.toNat)) with
  | false => simp [hd] at hm
  | true =>
    simp only [hd, if_true, Option.some.injEq] at hm
    subst hm
    exact poolDone_results graph queries _
      (runSchedule_inv graph queries sched _ (poolInit_inv graph queries _)) hd

theorem concurrent_extends (graph : Graph) (queries : List Int) (numWorkers : Int)
    (h : 1 ≤ numWorkers) (sched : List Nat) :
    ∃ ext, (ConcurrentBFSQueries graph queries numWorkers (sched ++ ext)).isSome = true := by
  have hpos : ¬ numWorkers ≤ 0 := by omega
  have hlen : 1 ≤ (runSchedule graph sched (poolInit queries numWorkers.toNat)).workers.length := by
    rw [runSchedule_length]
    simp only [poolInit, List.length_replicate]
    omega
  obtain ⟨ext, hext⟩ := pool_completes graph _ _ (le_refl _) hlen
  refine ⟨ext, ?_⟩
  simp only [ConcurrentBFSQueries, hpos, if_false, runSchedule_append, hext, if_true,
    Option.isSome_some]

/-- C1. With one worker or more, every schedule of the workers can be continued until
`ConcurrentBFSQueries` returns, and the map it returns has exactly the values of the
query list as keys, each mapped to its `bfs` traversal; a query list with repeated
values gives the same map as the list with the repetitions removed. -/
theorem concurrentBFSQueries_result (graph : Graph) (queries : List Int)
    (numWorkers : Int) (h : 1 ≤ numWorkers) :
    (∀ sched, ∃ ext,
      (ConcurrentBFSQueries graph queries numWorkers (sched ++ ext)).isSome = true) ∧
    (∀ sched m, ConcurrentBFSQueries graph queries numWorkers sched = some m →
      ∀ q, m q = if q ∈ queries then some (bfs graph q) else none) ∧
    (∀ sched sched2 m m2, ConcurrentBFSQueries graph queries numWorkers sched = some m →
      ConcurrentBFSQueries graph queries.dedup numWorkers sched2 = some m2 → m = m2) := by
  refine ⟨concurrent_extends graph queries numWorkers h,
    concurrent_some graph queries numWorkers h, ?_⟩
  intro sched sched2 m m2 hm hm2
  funext q
  rw [concurrent_some graph queries numWorkers h sched m hm q,
    concurrent_some graph queries.dedup numWorkers h sched2 m2 hm2 q]
  simp only [List.mem_dedup]

/-- Witness of C1: the graph of `main`, the queries `0, 1, 0`, two workers. -/
theorem concurrentBFSQueries_result_witness :
    (1 : Int) ≤ 2 ∧
    ((ConcurrentBFSQueries mainGraph [0, 1, 0] 2 [0, 1, 1, 0, 0, 0]).map
      (fun m => [m 0, m 1, m 2])) = some [some [0, 1, 2, 3, 4], some [1, 2, 3, 4], none] ∧
    ∀ sched m, ConcurrentBFSQueries mainGraph [0, 1, 0] 2 sched = some m →
      ∀ q, m q = if q ∈ [0, 1, 0] then some (bfs mainGraph q) else none :=
  ⟨by decide, by decide,
    (concurrentBFSQueries_result mainGraph [0, 1, 0] 2 (by decide)).2.1⟩

/-- C2. The map `ConcurrentBFSQueries` returns does not depend on the number of
workers nor on the order in which they take and complete the queries: two completed
runs on the same graph and queries, with any worker counts from one upwards and any
schedules, return the same map. -/
theorem concurrentBFSQueries_deterministic (graph : Graph) (queries : List Int)
    (w1 w2 : Int) (sched1 sched2 : List Nat) (h1 : 1 ≤ w1) (h2 : 1 ≤ w2)
    (hr1 : (ConcurrentBFSQueries graph queries w1 sched1).isSome = true)
    (hr2 : (ConcurrentBFSQueries graph queries w2 sched2).isSome = true) :
    ConcurrentBFSQueries graph queries w1 sched1
      = ConcurrentBFSQueries graph queries w2 sched2 := by
  obtain ⟨m1, hm1⟩ := Option.isSome_iff_exists.1 hr1
  obtain ⟨m2, hm2⟩ := Option.isSome_iff_exists.1 hr2
  rw [hm1, hm2]
  congr 1
  funext q
  rw [concurrent_some graph queries w1 h1 sched1 m1 hm1 q,
    concurrent_some graph queries w2 h2 sched2 m2 hm2 q]

/-- Witness of C2: one worker serving the queries in turn against three workers
finishing in another order. -/
theorem concurrentBFSQueries_deterministic_witness :
    ConcurrentBFSQueries mainGraph [0, 1, 2] 1 [0, 0, 0, 0, 0, 0]
      = ConcurrentBFSQueries mainGraph [0, 1, 2] 3 [2, 0, 1, 1, 0, 2] :=
  concurrentBFSQueries_deterministic mainGraph [0, 1, 2] 1 3 [0, 0, 0, 0, 0, 0]
    [2, 0, 1, 1, 0, 2] (by decide) (by decide) (by decide) (by decide)

/-- C3. With a worker count of zero or less `ConcurrentBFSQueries` returns the empty
map, whatever the graph, the queries and the schedule. -/
theorem concurrentBFSQueries_no_workers (graph : Graph) (queries : List Int)
    (numWorkers : Int) (sched : List Nat) (h : numWorkers ≤ 0) :
    ∃ m, ConcurrentBFSQueries graph queries numWorkers sched = some m ∧ ∀ k, m k = none :=
  ⟨emptyResults, by simp [ConcurrentBFSQueries, h], fun _ => rfl⟩

/-- Witness of C3: no worker, and a negative worker count, with pending queries. -/
theorem concurrentBFSQueries_no_workers_witness :
    (∃ m, ConcurrentBFSQueries mainGraph [0, 1, 2] 0 [] = some m ∧ ∀ k, m k = none) ∧
    (∃ m, ConcurrentBFSQueries mainGraph [0, 1, 2] (-3) [0, 1] = some m ∧ ∀ k, m k = none) :=
  ⟨concurrentBFSQueries_no_workers mainGraph [0, 1, 2] 0 [] (by decide),
    concurrentBFSQueries_no_workers mainGraph [0, 1, 2] (-3) [0, 1] (by decide)⟩

/-! ## challenge-22 : `MinCoins` -/

/-- C7 (fails on the code). `MinCoins` takes the largest denominations first: for the
amount 6 and the denominations 1, 3, 4 it returns 3 although the two coins 3, 3 make
6 and no fewer do; for the amount 6 and the denominations 3, 4 it returns -1
although the coins 3, 3 make 6. -/
theorem minCoins_greedy_not_minimal :
    MinCoins 6 [1, 3, 4] = some 3 ∧ MakesChange [1, 3, 4] 6 [3, 3] ∧
    (∀ coins, MakesChange [1, 3, 4] 6 coins → 2 ≤ coins.length) ∧
    MinCoins 6 [3, 4] = some (-1) ∧ MakesChange [3, 4] 6 [3, 3] := by
  refine ⟨by decide, ⟨by decide, by decide⟩, ?_, by decide, ⟨by decide, by decide⟩⟩
  intro coins hc
  obtain ⟨hmem, hsum⟩ := hc
  match coins, hmem, hsum with
  | [], _, hsum => simp at hsum
  | [c], hmem, hsum =>
    have hc6 : c = 6 := by simpa using hsum
    have := hmem c (by simp)
    subst hc6
    simp at this
  | _ :: _ :: _, _, _ => simp

/-! ## challenge-2 : `ReverseString` -/

theorem reverseLoop_stuck (fuel : Nat) :
    ∀ (r : List Char) (i j : Int), i < j → reverseLoop fuel r i j = none := by
  induction fuel with
  | zero => intro r i j h; simp [reverseLoop, h]
  | succ fuel ih => intro r i j h; simp [reverseLoop, h, ih]

/-- On a string of two runes or more the loop of `ReverseString` never ends, whatever
the number of passes allowed. -/
theorem reverseString_long (fuel : Nat) (s : List Char) (h : 2 ≤ s.length) :
    ReverseString fuel s = none :=
  reverseLoop_stuck fuel s 0 _ (by omega)

/-- C8 (fails on the code). On the string `ab` the loop of `ReverseString` is still
running after any number of passes, so the function does not return `ba`; only a
string of at most one rune, such as `a`, is returned. -/
theorem reverseString_never_returns :
    (∀ fuel, ReverseString fuel "ab".toList = none) ∧
      ReverseString 0 "a".toList = some "a".toList :=
  ⟨fun fuel => reverseLoop_stuck fuel _ 0 _ (by decide), by decide⟩

/-! ## challenge-6 : `CountWordFrequency` -/

theorem foldl_incrWord (words : List (List Char)) :
    ∀ (vwf : FreqMap) (k : List Char),
      (words.foldl incrWord vwf) k
        = if k ∈ words then some ((vwf k).getD 0 + words.count k) else vwf k := by
  induction words with
  | nil => intro vwf k; simp
  | cons w ws ih =>
    intro vwf k
    rw [List.foldl_cons, ih]
    by_cases hk : k = w
    · subst hk
      by_cases hm : k ∈ ws
      · simp [hm, incrWord, List.count_cons_self]
        omega
      · simp [hm, incrWord, List.count_eq_zero_of_not_mem hm]
    · have hwk : ¬ w = k := fun h => hk h.symm
      by_cases hm : k ∈ ws
      · simp [hm, incrWord, hk, List.count_cons, hwk]
      · simp [hm, incrWord, hk]

theorem wordCounts_eq_foldl (words : List (List Char)) :
    words.foldl incrWord emptyFreq = wordCounts words := by
  funext k
  rw [foldl_incrWord]
  simp [wordCounts, emptyFreq]

theorem pendingWords_nil_text (u : RuneClass) (builder : List Char) :
    pendingWords u builder [] = if 0 < builder.length then [builder] else [] := by
  cases builder <;> simp [pendingWords, List.splitOnP_nil, List.modifyHead]

theorem pendingWords_letter (u : RuneClass) (builder text : List Char) (c : Char)
    (hc : (u.isLetter c || u.isDigit c) = true) :
    pendingWords u builder (c :: text) = pendingWords u (builder ++ [u.toLower c]) text := by
  unfold pendingWords
  rw [List.splitOnP_cons]
  simp only [hc, Bool.not_true, Bool.false_eq_true, if_false]
  cases hs : List.splitOnP (fun c => !(u.isLetter c || u.isDigit c)) text with
  | nil => exact absurd hs (List.splitOnP_ne_nil _ _)
  | cons p ps => simp [List.modifyHead]

theorem pendingWords_separator (u : RuneClass) (builder text : List Char) (c : Char)
    (hc : (u.isLetter c || u.isDigit c) = false) :
    pendingWords u builder (c :: text)
      = (if 0 < builder.length then [builder] else []) ++ pendingWords u [] text := by
  unfold pendingWords
  rw [List.splitOnP_cons]
  simp only [hc, Bool.not_false, if_true]
  cases hs : List.splitOnP (fun c => !(u.isLetter c || u.isDigit c)) text with
  | nil => exact absurd hs (List.splitOnP_ne_nil _ _)
  | cons p ps => cases builder <;> simp [List.modifyHead, List.filter_cons]

theorem pendingWords_empty_builder (u : RuneClass) (text : List Char) :
    pendingWords u [] text = docWords u text := by
  unfold pendingWords docWords
  have hid : (fun w : List Char => [] ++ w) = id := by funext w; simp
  rw [hid]
  have hmod : ∀ l : List (List Char), List.modifyHead id l = l := by
    intro l; cases l <;> simp [List.modifyHead]
  rw [hmod, List.filter_map]
  congr 1
  apply List.filter_congr
  intro w _
  cases w <;> simp

/-- The loop of `CountWordFrequency` from any builder and map: it counts the pending
words of the text without its apostrophes. -/
theorem countLoop_eq (u : RuneClass) (hl : u.isLetter apostrophe = false)
    (hd : u.isDigit apostrophe = false) (text : List Char) :
    ∀ (builder : List Char) (vwf : FreqMap),
      (flushWord (text.foldl (wordStep u) { builder := builder, vwf := vwf })).vwf
        = (pendingWords u builder (dropApostrophes text)).foldl incrWord vwf := by
  induction text with
  | nil =>
    intro builder vwf
    simp only [List.foldl_nil, dropApostrophes, List.filter_nil, pendingWords_nil_text]
    by_cases hb : 0 < builder.length <;> simp [flushWord, hb]
  | cons c cs ih =>
    intro builder vwf
    rw [List.foldl_cons]
    by_cases hc : (u.isLetter c || u.isDigit c) = true
    · have hne : c ≠ apostrophe := by
        intro h
        subst h
        simp [hl, hd] at hc
      have hstep : wordStep u { builder := builder, vwf := vwf } c
          = { builder := builder ++ [u.toLower c], vwf := vwf } := by
        simp only [wordStep, hc, if_true]
      have hdrop : dropApostrophes (c :: cs) = c :: dropApostrophes cs := by
        simp [dropApostrophes, hne]
      rw [hstep, ih, hdrop, pendingWords_letter u _ _ c hc]
    · have hc2 : (u.isLetter c || u.isDigit c) = false := by simpa using hc
      by_cases hq : c = apostrophe
      · have hstep : wordStep u { builder := builder, vwf := vwf } c
            = { builder := builder, vwf := vwf } := by
          subst hq
          simp [wordStep, hl, hd]
        have hdrop : dropApostrophes (c :: cs) = dropApostrophes cs := by
          simp [dropApostrophes, hq]
        rw [hstep, ih, hdrop]
      · have hstep : wordStep u { builder := builder, vwf := vwf } c
            = flushWord { builder := builder, vwf := vwf } := by
          simp only [wordStep, hc2, hq, Bool.false_eq_true, if_false]
        have hdrop : dropApostrophes (c :: cs) = c :: dropApostrophes cs := by
          simp [dropApostrophes, hq]
        rw [hstep, hdrop, pendingWords_separator u _ _ c hc2]
        by_cases hb : 0 < builder.length
        · have hf : flushWord { builder := builder, vwf := vwf }
              = { builder := [], vwf := incrWord vwf builder } := by
            simp only [flushWord, hb, if_true]
          rw [hf, ih]
          simp only [hb, if_true, List.singleton_append, List.foldl_cons]
        · have hf : flushWord { builder := builder, vwf := vwf }
              = { builder := builder, vwf := vwf } := by
            simp only [flushWord, hb, if_false]
          have hnil : builder = [] := by
            cases builder with
            | nil => rfl
            | cons x xs => simp at hb
          rw [hf, ih]
          subst hnil
          simp

/-- C9 as stated fails: in `don't` the apostrophe does not end the word, so the code
counts the one word `dont`, where the maximal runs of letters and digits are `don`
and `t`. -/
theorem countWordFrequency_apostrophe_joins :
    CountWordFrequency asciiRunes "don't".toList "dont".toList = some 1 ∧
    CountWordFrequency asciiRunes "don't".toList "don".toList = none ∧
    wordCounts (docWords asciiRunes "don't".toList) "dont".toList = none ∧
    wordCounts (docWords asciiRunes "don't".toList) "don".toList = some 1 ∧
    CountWordFrequency asciiRunes "don't".toList
      ≠ wordCounts (docWords asciiRunes "don't".toList) := by
  refine ⟨by decide, by decide, by decide, by decide, ?_⟩
  intro h
  have h2 := congrFun h "dont".toList
  revert h2
  decide

/-- C9, amended. `CountWordFrequency` returns the map whose keys are the lowercased
words of the text with its apostrophes removed, a word being a maximal run of letters
and digits (every other character separates words and is ignored), each key mapped to
the number of occurrences of that word. The apostrophe is neither a letter nor a
digit. -/
theorem countWordFrequency_spec (u : RuneClass) (text : List Char)
    (hl : u.isLetter apostrophe = false) (hd : u.isDigit apostrophe = false) :
    CountWordFrequency u text = wordCounts (docWords u (dropApostrophes text)) := by
  unfold CountWordFrequency
  rw [countLoop_eq u hl hd text [] emptyFreq, pendingWords_empty_builder,
    wordCounts_eq_foldl]

/-- Witness of C9 amended: the example of the doc comment. -/
theorem countWordFrequency_spec_witness :
    CountWordFrequency asciiRunes "The quick brown fox jumps over the lazy dog.".toList
      = wordCounts (docWords asciiRunes
          (dropApostrophes "The quick brown fox jumps over the lazy dog.".toList)) ∧
    docWords asciiRunes (dropApostrophes "The quick brown fox jumps over the lazy dog.".toList)
      = ["the".toList, "quick".toList, "brown".toList, "fox".toList, "jumps".toList,
          "over".toList, "the".toList, "lazy".toList, "dog".toList] ∧
    ["the", "quick", "brown", "fox", "jumps", "over", "lazy", "dog", "cat"].map
        (fun w => CountWordFrequency asciiRunes
          "The quick brown fox jumps over the lazy dog.".toList w.toList)
      = [some 2, some 1, some 1, some 1, some 1, some 1, some 1, some 1, none] :=
  ⟨countWordFrequency_spec asciiRunes _ (by decide) (by decide), by decide, by decide⟩

/-! ## gin/challenge-2-middleware : `AuthMiddleware` -/

theorem authMiddleware_admin (c : Context) (h : c.apiKey = "admin-key-123") :
    AuthMiddleware c = acceptRequest c "admin" := by
  have h1 : isValidApiKey "admin-key-123" = true := by decide
  simp [AuthMiddleware, h, h1]

theorem authMiddleware_user (c : Context) (h : c.apiKey = "user-key-456") :
    AuthMiddleware c = acceptRequest c "user" := by
  have h1 : isValidApiKey "user-key-456" = true := by decide
  simp [AuthMiddleware, h, h1]

theorem authMiddleware_other (c : Context) (ha : c.apiKey ≠ "admin-key-123")
    (hu : c.apiKey ≠ "user-key-456") :
    ∃ msg, AuthMiddleware c = rejectRequest c msg := by
  unfold AuthMiddleware
  split_ifs
  · exact ⟨_, rfl⟩
  · exact ⟨_, rfl⟩
  · exact ⟨_, rfl⟩

/-- The response of a rejected request: the error message is written after the body
so far and the chain is aborted; the status is 401 when nothing had been written,
and the status already written otherwise. -/
theorem rejectRequest_response (c : Context) (msg : String) :
    (rejectRequest c msg).aborted = true ∧ (rejectRequest c msg).written = true ∧
    (rejectRequest c msg).body = c.body ++ [msg] ∧
    (rejectRequest c msg).keys = c.keys ∧ (rejectRequest c msg).nextCalls = c.nextCalls ∧
    (c.written = false → (rejectRequest c msg).status = 401) ∧
    (c.written = true → (rejectRequest c msg).status = c.status) := by
  refine ⟨rfl, rfl, rfl, rfl, rfl, ?_, ?_⟩
  · intro h
    simp [rejectRequest, writeJSON, h, statusUnauthorized]
  · intro h
    simp [rejectRequest, writeJSON, h]

/-- C10. `AuthMiddleware` calls the next handler exactly when the header `X-API-Key` is
`admin-key-123` or `user-key-456`, having set the role to `admin` resp. `user` and
written no response; for every other value, the empty one of a missing header
included, it writes an error response, aborts the chain, sets no role and does not
call the next handler, and the response it writes has the status 401, no response
having been written before the middleware runs. -/
theorem authMiddleware_spec (c : Context) :
    ((AuthMiddleware c).nextCalls = c.nextCalls + 1 ↔
      (c.apiKey = "admin-key-123" ∨ c.apiKey = "user-key-456")) ∧
    (c.apiKey = "admin-key-123" →
      AuthMiddleware c = { c with keys := ("role", "admin") :: c.keys,
                                  nextCalls := c.nextCalls + 1 }) ∧
    (c.apiKey = "user-key-456" →
      AuthMiddleware c = { c with keys := ("role", "user") :: c.keys,
                                  nextCalls := c.nextCalls + 1 }) ∧
    (c.apiKey ≠ "admin-key-123" → c.apiKey ≠ "user-key-456" →
      (AuthMiddleware c).aborted = true ∧ (AuthMiddleware c).written = true ∧
      (AuthMiddleware c).keys = c.keys ∧ (AuthMiddleware c).nextCalls = c.nextCalls ∧
      (c.written = false → (AuthMiddleware c).status = 401)) := by
  have hother : c.apiKey ≠ "admin-key-123" → c.apiKey ≠ "user-key-456" →
      (AuthMiddleware c).aborted = true ∧ (AuthMiddleware c).written = true ∧
      (AuthMiddleware c).keys = c.keys ∧ (AuthMiddleware c).nextCalls = c.nextCalls ∧
      (c.written = false → (AuthMiddleware c).status = 401) := by
    intro ha hu
    obtain ⟨msg, hmsg⟩ := authMiddleware_other c ha hu
    rw [hmsg]
    have hr := rejectRequest_response c msg
    exact ⟨hr.1, hr.2.1, hr.2.2.2.1, hr.2.2.2.2.1, hr.2.2.2.2.2.1⟩
  refine ⟨⟨?_, ?_⟩, ?_, ?_, hother⟩
  · intro hn
    by_contra hne
    push_neg at hne
    have := (hother hne.1 hne.2).2.2.2.1
    omega
  · rintro (h | h)
    · rw [authMiddleware_admin c h]; rfl
    · rw [authMiddleware_user c h]; rfl
  · intro h
    rw [authMiddleware_admin c h]; rfl
  · intro h
    rw [authMiddleware_user c h]; rfl

/-- Witness of C10: the two valid keys, a missing header, and a key that merely
contains a valid one, each on a request without a response written so far. -/
theorem authMiddleware_spec_witness :
    AuthMiddleware (requestContext "admin-key-123")
      = { requestContext "admin-key-123" with keys := [("role", "admin")], nextCalls := 1 } ∧
    AuthMiddleware (requestContext "user-key-456")
      = { requestContext "user-key-456" with keys := [("role", "user")], nextCalls := 1 } ∧
    ((AuthMiddleware (requestContext "")).aborted = true ∧
      (AuthMiddleware (requestContext "")).written = true ∧
      (AuthMiddleware (requestContext "")).keys = [] ∧
      (AuthMiddleware (requestContext "")).nextCalls = 0 ∧
      (AuthMiddleware (requestContext "")).status = 401) ∧
    ((AuthMiddleware (requestContext "admin-key-1234")).aborted = true ∧
      (AuthMiddleware (requestContext "admin-key-1234")).written = true ∧
      (AuthMiddleware (requestContext "admin-key-1234")).keys = [] ∧
      (AuthMiddleware (requestContext "admin-key-1234")).nextCalls = 0 ∧
      (AuthMiddleware (requestContext "admin-key-1234")).status = 401) :=
  have h1 := (authMiddleware_spec (requestContext "")).2.2.2 (by decide) (by decide)
  have h2 := (authMiddleware_spec (requestContext "admin-key-1234")).2.2.2
    (by decide) (by decide)
  ⟨(authMiddleware_spec (requestContext "admin-key-123")).2.1 rfl,
    (authMiddleware_spec (requestContext "user-key-456")).2.2.1 rfl,
    ⟨h1.1, h1.2.1, h1.2.2.1, h1.2.2.2.1, h1.2.2.2.2 rfl⟩,
    ⟨h2.1, h2.2.1, h2.2.2.1, h2.2.2.2.1, h2.2.2.2.2 rfl⟩⟩

/-! ## challenge-4 : breadth-first order -/

theorem reachable_of_walkEnds (graph : Graph) (start : Int) :
    ∀ (n : Nat) (v : Int), v ∈ walkEnds graph start n → Reachable graph start v := by
  intro n
  induction n with
  | zero =>
    intro v hv
    simp only [walkEnds, List.mem_singleton] at hv
    subst hv
    exact Relation.ReflTransGen.refl
  | succ n ih =>
    intro v hv
    simp only [walkEnds, List.mem_flatMap] at hv
    obtain ⟨p, hp, hpv⟩ := hv
    exact Relation.ReflTransGen.tail (ih p hp) hpv

theorem walkEnds_of_reachable (graph : Graph) (start v : Int)
    (h : Reachable graph start v) : ∃ n, v ∈ walkEnds graph start n := by
  unfold Reachable at h
  induction h with
  | refl => exact ⟨0, by simp [walkEnds]⟩
  | tail _ hedge ih =>
    obtain ⟨n, hn⟩ := ih
    exact ⟨n + 1, by simp only [walkEnds, List.mem_flatMap]; exact ⟨_, hn, hedge⟩⟩

/-- A certified sequence holds every node that ends a walk from `start`, at a level
not above the number of edges of the walk. -/
theorem levelCert_complete (graph : Graph) (start : Int) (lvl : Int → Nat) (r : List Int)
    (h : LevelCert graph start lvl r) :
    ∀ (n : Nat) (w : Int), w ∈ walkEnds graph start n → w ∈ r ∧ lvl w ≤ n := by
  obtain ⟨hhead, hzero, -, -, hclosed⟩ := h
  intro n
  induction n with
  | zero =>
    intro w hw
    simp only [walkEnds, List.mem_singleton] at hw
    subst hw
    exact ⟨List.mem_of_mem_head? (by simp [hhead]), by omega⟩
  | succ n ih =>
    intro w hw
    simp only [walkEnds, List.mem_flatMap] at hw
    obtain ⟨p, hp, hpw⟩ := hw
    obtain ⟨hpr, hpl⟩ := ih p hp
    obtain ⟨hwr, hwl⟩ := hclosed p hpr w hpw
    exact ⟨hwr, by omega⟩

/-- In a certified sequence the level of a node is its shortest-path distance. -/
theorem levelCert_isDist (graph : Graph) (start : Int) (lvl : Int → Nat) (r : List Int)
    (h : LevelCert graph start lvl r) (x : Int) (hx : x ∈ r) :
    IsDist graph start x (lvl x) := by
  refine ⟨h.2.2.1 x hx, ?_⟩
  intro m hm hmem
  have := (levelCert_complete graph start lvl r h m x hmem).2
  omega

theorem isDist_unique (graph : Graph) (start v : Int) (d e : Nat)
    (hd : IsDist graph start v d) (he : IsDist graph start v e) : d = e := by
  rcases Nat.lt_trichotomy d e with h | h | h
  · exact absurd hd.1 (he.2 d h)
  · exact h
  · exact absurd he.1 (hd.2 e h)

theorem bfsInit_levels (graph : Graph) (start : Int) :
    BfsLevels graph start (fun _ => 0) (bfsInit start) := by
  refine ⟨by simp [bfsInit], rfl, ?_, by simp [bfsInit], by simp [bfsInit], ?_,
    by simp [bfsInit]⟩
  · intro x hx
    simp only [bfsInit, List.nil_append, List.mem_singleton] at hx
    subst hx
    simp [walkEnds]
  · intro h _ x _
    exact Nat.zero_le _

/-- One pass of the loop keeps the levelling invariant, the nodes it appends to the
queue being put one level above the node it took off. -/
theorem bfsBody_levels (graph : Graph) (start : Int) (nodes : List Int) (lvl : Int → Nat)
    (node : Int) (rest order visited : List Int)
    (hinv : BfsInv nodes ⟨node :: rest, order, visited⟩)
    (hlv : BfsLevels graph start lvl ⟨node :: rest, order, visited⟩) :
    BfsLevels graph start
      (raiseLevels lvl (freshNodes (node :: visited) (neighbors graph node)) (lvl node + 1))
      (bfsBody graph node rest order visited) := by
  obtain ⟨-, hvis, -⟩ := hinv
  obtain ⟨hhead, hzero, hwalk, hpair, hclosed, hfront, hvisin⟩ := hlv
  simp only [List.tail_cons] at hvis
  have hs := freshNodes_sound (node :: visited) (neighbors graph node)
  have hcomp := freshNodes_complete (node :: visited) (neighbors graph node)
  simp only [bfsBody, visitNeighbors_eq]
  generalize freshNodes (node :: visited) (neighbors graph node) = F at hs hcomp ⊢
  have e : (order ++ [node]) ++ (rest ++ F) = (order ++ node :: rest) ++ F := by simp
  have hnode : node ∈ order ++ node :: rest :=
    List.mem_append_right _ (List.mem_cons_self _ _)
  have hstart : start ∈ order ++ node :: rest :=
    List.mem_of_mem_head? (by rw [hhead]; rfl)
  have hFold : ∀ x ∈ F, x ∉ order ++ node :: rest := by
    intro x hx hmem
    have hnot := (hs x hx).2
    rcases List.mem_append.1 hmem with ho | hq
    · exact hnot (List.mem_cons_of_mem _ (hvis x (List.mem_append_left _ ho)))
    · rcases List.mem_cons.1 hq with rfl | hr
      · exact hnot (List.mem_cons_self _ _)
      · exact hnot (List.mem_cons_of_mem _ (hvis x (List.mem_append_right _ hr)))
  have hold : ∀ x ∈ order ++ node :: rest, raiseLevels lvl F (lvl node + 1) x = lvl x := by
    intro x hx
    simp only [raiseLevels]
    rw [if_neg (fun hf => hFold x hf hx)]
  have hnew : ∀ x ∈ F, raiseLevels lvl F (lvl node + 1) x = lvl node + 1 := by
    intro x hx
    simp only [raiseLevels]
    rw [if_pos hx]
  have hsplit := List.pairwise_append.1 hpair
  have hbelow : ∀ a ∈ order, lvl a ≤ lvl node := fun a ha =>
    hsplit.2.2 a ha node (List.mem_cons_self _ _)
  have hrest : ∀ x ∈ rest, lvl node ≤ lvl x ∧ lvl x ≤ lvl node + 1 := fun x hx =>
    ⟨List.rel_of_pairwise_cons hsplit.2.1 hx,
      hfront node rfl x (List.mem_cons_of_mem _ hx)⟩
  have hle : ∀ a ∈ order ++ node :: rest, lvl a ≤ lvl node + 1 := by
    intro a ha
    rcases List.mem_append.1 ha with ho | hq
    · exact Nat.le_succ_of_le (hbelow a ho)
    · rcases List.mem_cons.1 hq with rfl | hr
      · exact Nat.le_succ _
      · exact (hrest a hr).2
  refine ⟨?_, ?_, ?_, ?_, ?_, ?_, ?_⟩
  · show ((order ++ [node]) ++ (rest ++ F)).head? = some start
    rw [e, List.head?_append_of_ne_nil _ (by simp)]
    exact hhead
  · rw [hold start hstart]
    exact hzero
  · intro x hx
    have hx2 : x ∈ (order ++ node :: rest) ++ F := by rw [← e]; exact hx
    rcases List.mem_append.1 hx2 with h | h
    · rw [hold x h]
      exact hwalk x h
    · rw [hnew x h]
      simp only [walkEnds, List.mem_flatMap]
      exact ⟨node, hwalk node hnode, (hs x h).1⟩
  · show ((order ++ [node]) ++ (rest ++ F)).Pairwise _
    rw [e, List.pairwise_append]
    refine ⟨?_, ?_, ?_⟩
    · exact List.Pairwise.imp_of_mem
        (fun ha hb hab => by rw [hold _ ha, hold _ hb]; exact hab) hpair
    · exact List.Pairwise.imp_of_mem
        (fun ha hb _ => by rw [hnew _ ha, hnew _ hb])
        (List.pairwise_of_forall (l := F) (fun _ _ => trivial))
    · intro a ha b hb
      rw [hold a ha, hnew b hb]
      exact hle a ha
  · intro x hx w hw
    show w ∈ (order ++ [node]) ++ (rest ++ F) ∧ _
    rw [e]
    have hx2 : x ∈ order ++ [node] := hx
    rcases List.mem_append.1 hx2 with h | h
    · obtain ⟨hw1, hw2⟩ := hclosed x h w hw
      refine ⟨List.mem_append_left _ hw1, ?_⟩
      rw [hold w hw1, hold x (List.mem_append_left _ h)]
      exact hw2
    · simp only [List.mem_singleton] at h
      subst h
      rcases hcomp w hw with hv | hf
      · have hwold : w ∈ order ++ x :: rest := by
          rcases List.mem_cons.1 hv with rfl | hv2
          · exact hnode
          · exact hvisin w hv2
        refine ⟨List.mem_append_left _ hwold, ?_⟩
        rw [hold w hwold, hold x hnode]
        exact hle w hwold
      · refine ⟨List.mem_append_right _ hf, ?_⟩
        rw [hnew w hf, hold x hnode]
  · intro h hh x hx
    have hboth : ∀ y ∈ rest ++ F, lvl node ≤ raiseLevels lvl F (lvl node + 1) y ∧
        raiseLevels lvl F (lvl node + 1) y ≤ lvl node + 1 := by
      intro y hy
      rcases List.mem_append.1 hy with hr | hf
      · rw [hold y (List.mem_append_right _ (List.mem_cons_of_mem _ hr))]
        exact hrest y hr
      · rw [hnew y hf]
        exact ⟨Nat.le_succ _, le_refl _⟩
    have hh2 : h ∈ rest ++ F := List.mem_of_mem_head? (by rw [hh]; rfl)
    have h1 := (hboth x hx).2
    have h2 := (hboth h hh2).1
    omega
  · intro x hx
    show x ∈ (order ++ [node]) ++ (rest ++ F)
    rw [e]
    have hx2 : x ∈ F.reverse ++ node :: visited := hx
    rcases List.mem_append.1 hx2 with hf | hv
    · exact List.mem_append_right _ (List.mem_reverse.1 hf)
    · rcases List.mem_cons.1 hv with rfl | hv2
      · exact List.mem_append_left _ hnode
      · exact List.mem_append_left _ (hvisin x hv2)

/-- When the loop ends, the sequence it returns is certified by a levelling. -/
theorem bfsLoop_levels (graph : Graph) (start : Int) (nodes : List Int)
    (hN : ∀ node, ∀ x ∈ neighbors graph node, x ∈ nodes) :
    ∀ (fuel : Nat) (s : BfsState) (lvl : Int → Nat) (r : List Int),
      BfsInv nodes s → BfsLevels graph start lvl s → bfsLoop graph fuel s = some r →
      ∃ lvl2, LevelCert graph start lvl2 r := by
  intro fuel
  induction fuel with
  | zero =>
    intro s lvl r hinv hlv hr
    obtain ⟨queue, order, visited⟩ := s
    cases queue with
    | nil =>
      simp only [bfsLoop, Option.some.injEq] at hr
      subst hr
      obtain ⟨h1, h2, h3, h4, h5, -, -⟩ := hlv
      simp only [List.append_nil] at h1 h3 h4 h5
      exact ⟨lvl, h1, h2, h3, h4, h5⟩
    | cons node rest => simp [bfsLoop] at hr
  | succ fuel ih =>
    intro s lvl r hinv hlv hr
    obtain ⟨queue, order, visited⟩ := s
    cases queue with
    | nil =>
      simp only [bfsLoop, Option.some.injEq] at hr
      subst hr
      obtain ⟨h1, h2, h3, h4, h5, -, -⟩ := hlv
      simp only [List.append_nil] at h1 h3 h4 h5
      exact ⟨lvl, h1, h2, h3, h4, h5⟩
    | cons node rest =>
      simp only [bfsLoop] at hr
      exact ih _ _ r (bfsBody_inv graph nodes hN node rest order visited hinv)
        (bfsBody_levels graph start nodes lvl node rest order visited hinv hlv) hr

/-- The sequence `bfs` returns is certified by a levelling. -/
theorem bfs_levelCert (graph : Graph) (start : Int) :
    ∃ lvl, LevelCert graph start lvl (bfs graph start) := by
  by_cases h0 : (neighbors graph start).length = 0
  · have hb : bfs graph start = [start] := by simp [bfs, bfsFuel, h0]
    have hnil : neighbors graph start = [] := List.length_eq_zero.1 h0
    rw [hb]
    refine ⟨fun _ => 0, rfl, rfl, ?_, by simp, ?_⟩
    · intro x hx
      simp only [List.mem_singleton] at hx
      subst hx
      simp [walkEnds]
    · intro x hx w hw
      simp only [List.mem_singleton] at hx
      subst hx
      simp [hnil] at hw
  · have hf := bfsFuel_eq_some_bfs graph start (nodeBound graph start) (le_refl _)
    simp only [bfsFuel, h0, if_false] at hf
    exact bfsLoop_levels graph start (graphNodes graph start)
      (fun node => neighbors_subset_graphNodes graph start node) _ _ _ _
      (bfsInit_inv graph start) (bfsInit_levels graph start) hf

/-- C11. The nodes of the sequence returned by `bfs` are exactly the nodes reachable
from `start` by following zero or more edges of the graph, and the sequence begins
with `start`. -/
theorem bfs_reachable_set (graph : Graph) (start : Int) :
    (∀ v, v ∈ bfs graph start ↔ Reachable graph start v) ∧
      (bfs graph start).head? = some start := by
  obtain ⟨lvl, hcert⟩ := bfs_levelCert graph start
  refine ⟨fun v => ⟨fun hv => ?_, fun hv => ?_⟩, hcert.1⟩
  · exact reachable_of_walkEnds graph start (lvl v) v (hcert.2.2.1 v hv)
  · obtain ⟨n, hn⟩ := walkEnds_of_reachable graph start v hv
    exact (levelCert_complete graph start lvl _ hcert n v hn).1

/-- C12. Every node of the sequence returned by `bfs` has a shortest-path distance
from `start`, and the distances do not decrease along the sequence: when `u` stands
before `v`, the distance of `u` is at most the distance of `v`. -/
theorem bfs_distance_order (graph : Graph) (start : Int) :
    (∀ v ∈ bfs graph start, ∃ d, IsDist graph start v d) ∧
    (∀ (i j : Nat) (u v : Int) (du dv : Nat), i < j →
      (bfs graph start)[i]? = some u → (bfs graph start)[j]? = some v →
      IsDist graph start u du → IsDist graph start v dv → du ≤ dv) := by
  obtain ⟨lvl, hcert⟩ := bfs_levelCert graph start
  refine ⟨fun v hv => ⟨lvl v, levelCert_isDist graph start lvl _ hcert v hv⟩, ?_⟩
  intro i j u v du dv hij hu hv hdu hdv
  obtain ⟨hi, hui⟩ := List.getElem?_eq_some.1 hu
  obtain ⟨hj, hvj⟩ := List.getElem?_eq_some.1 hv
  have hum : u ∈ bfs graph start := hui ▸ List.getElem_mem hi
  have hvm : v ∈ bfs graph start := hvj ▸ List.getElem_mem hj
  have hle := List.pairwise_iff_getElem.1 hcert.2.2.2.1 i j hi hj hij
  rw [hui, hvj] at hle
  rw [isDist_unique graph start u du (lvl u) hdu (levelCert_isDist graph start lvl _ hcert u hum),
    isDist_unique graph start v dv (lvl v) hdv (levelCert_isDist graph start lvl _ hcert v hvm)]
  exact hle

/-- Witness of C12 on the graph of `main` from node `0`: node `2`, at distance 1,
stands before node `3`, at distance 2. -/
theorem bfs_distance_order_witness :
    bfs mainGraph 0 = [0, 1, 2, 3, 4] ∧ IsDist mainGraph 0 2 1 ∧ IsDist mainGraph 0 3 2 ∧
      (1 : Nat) ≤ 2 :=
  ⟨by decide, by unfold IsDist; decide, by unfold IsDist; decide,
    (bfs_distance_order mainGraph 0).2 2 3 2 3 1 2 (by decide) (by decide) (by decide)
      (by unfold IsDist; decide) (by unfold IsDist; decide)⟩

end GoPractice
